import Mathlib

/-!
Shallow embedding of `src/cache/lru.rs` (higherdb): the capacity-bounded
LRU cache `LruCache<K, V>` with weighted entries.

Modelling choices, traced to the source:

* The recency list (intrusive doubly linked list with head/tail sentinels)
  is modelled as `order : List K`, most-recently-used first; `head.next` is
  the first element, `tail.prev` the last.  `LruInner::detach` of a resident
  entry is `List.erase`, `LruInner::attach` is consing at the front.
* The hash index `table : HashMap<Key<K>, Box<LruEntry<K, V>>>` is modelled
  as an association list `List (K × V × Nat)` (key, value, stored charge);
  `Key<K>` hashes and compares the pointed-to key, so lookups are by key
  content.  The list order is immaterial (a hash map is unordered); HashMap
  key uniqueness is proved as an invariant of the operations, not assumed.
* `usage : AtomicUsize` is a `Nat` kept below `2 ^ 64`; `fetch_add` and
  `fetch_sub` wrap, hence the explicit `% 2 ^ 64` arithmetic.
* The `evict_hook` callback is modelled as a log `evLog : List (K × V)`
  recording each invocation `(key, value)` in order.
* `insert` can panic: when `usage >= capacity` holds with an empty recency
  list the code reads the tail sentinel's uninitialised key, and
  `table.remove(..).unwrap()` panics when the victim key is not indexed.
  Fallible paths return `Option`; `none` is a panic.
-/

namespace HigherDb

/-- The word size of `usize` arithmetic: `usage` is a 64-bit counter. -/
def W : Nat := 2 ^ 64

/-- Wrapping add on the usage counter (`AtomicUsize::fetch_add`). -/
def wadd (a b : Nat) : Nat := (a + b) % W

/-- Wrapping sub on the usage counter (`AtomicUsize::fetch_sub`). -/
def wsub (a b : Nat) : Nat := (a + (W - b % W)) % W

/-- The mutable state of one `LruCache<K, V>`: capacity, recency list
(most-recently-used first), hash index (key ↦ value, stored charge),
usage counter, and the log of eviction-hook invocations. -/
structure LruState (K V : Type) where
  capacity : Nat
  order : List K
  table : List (K × V × Nat)
  usage : Nat
  evLog : List (K × V)
deriving DecidableEq

variable {K V : Type} [DecidableEq K]

/-- `HashMap::get` on the index: first entry with the given key. -/
def tableGet : List (K × V × Nat) → K → Option (V × Nat)
  | [], _ => none
  | e :: t, k => if e.1 = k then some e.2 else tableGet t k

/-- `HashMap::remove` on the index: drop the entry with the given key. -/
def tableRemove : List (K × V × Nat) → K → List (K × V × Nat)
  | [], _ => []
  | e :: t, k => if e.1 = k then t else e :: tableRemove t k

/-- `HashMap::insert` on the index: add the entry, replacing any entry
already stored under the key. -/
def tableInsert (t : List (K × V × Nat)) (k : K) (v : V) (c : Nat) :
    List (K × V × Nat) :=
  (k, v, c) :: tableRemove t k

/-- The hit path of `LruCache::insert` swaps only the value of the resident
entry (`mem::swap` with `value`); the stored charge is left untouched. -/
def tableSetValue : List (K × V × Nat) → K → V → List (K × V × Nat)
  | [], _, _ => []
  | e :: t, k, v => if e.1 = k then (k, v, e.2.2) :: t else e :: tableSetValue t k v

/-- `LruCache::new(cap)`: empty table, the two sentinels linked to each
other (empty recency list), usage `0`. -/
def new (cap : Nat) : LruState K V :=
  { capacity := cap, order := [], table := [], usage := 0, evLog := [] }

/-- `LruCache::get`: on a hit, detach the entry and re-attach it after
`head` (promote to most-recently-used) and return a clone of the stored
value; on a miss return `None`. -/
def get (s : LruState K V) (k : K) : LruState K V × Option V :=
  match tableGet s.table k with
  | some vc => ({ s with order := k :: s.order.erase k }, some vc.1)
  | none => (s, none)

/-- `LruCache::insert`.  With `capacity == 0` nothing happens.  On a hit the
value is swapped in place (charge untouched), the entry promoted, the hook
invoked with the old value, which is returned.  On a miss with
`usage >= capacity` the code evicts exactly once: it removes the entry at
`tail.prev` from the index, decrements `usage` by that entry's stored
charge, invokes the hook with the evicted pair, and reuses the node for the
new key and value — keeping the node's old `charge` field, since the reuse
path never overwrites it.  Then `usage` is incremented by the new `charge`
argument and the node is attached at the front and indexed.  `none` models
a panic: the eviction path reads the sentinel's uninitialised key when the
list is empty, and `table.remove(..).unwrap()` panics on a missing victim. -/
def insert (s : LruState K V) (k : K) (v : V) (c : Nat) :
    Option (LruState K V × Option V) :=
  if 0 < s.capacity then
    match tableGet s.table k with
    | some vc =>
        some ({ s with
                  table := tableSetValue s.table k v
                  order := k :: s.order.erase k
                  evLog := s.evLog ++ [(k, vc.1)] },
              some vc.1)
    | none =>
        if s.capacity ≤ s.usage then
          match s.order.getLast? with
          | none => none
          | some victim =>
              match tableGet s.table victim with
              | none => none
              | some wc =>
                  some ({ s with
                            table := tableInsert (tableRemove s.table victim) k v wc.2
                            order := k :: s.order.erase victim
                            usage := wadd (wsub s.usage wc.2) c
                            evLog := s.evLog ++ [(victim, wc.1)] },
                        none)
        else
          some ({ s with
                    table := tableInsert s.table k v c
                    order := k :: s.order
                    usage := wadd s.usage c },
                none)
  else
    some (s, none)

/-- `LruCache::erase`: if the key is indexed, remove its entry from the
index, subtract the entry's stored charge from `usage`, detach it from the
recency list, and invoke the hook with the key and the stored value;
otherwise do nothing. -/
def erase (s : LruState K V) (k : K) : LruState K V :=
  match tableGet s.table k with
  | some vc =>
      { s with
          table := tableRemove s.table k
          order := s.order.erase k
          usage := wsub s.usage vc.2
          evLog := s.evLog ++ [(k, vc.1)] }
  | none => s

/-- `LruCache::total_charge`: the current value of the usage counter. -/
def total_charge (s : LruState K V) : Nat := s.usage

/-- One public cache operation. -/
inductive Op (K V : Type) where
  | insert (k : K) (v : V) (c : Nat)
  | get (k : K)
  | erase (k : K)
deriving DecidableEq

/-- Run one operation; `none` is a panic inside `insert`. -/
def step (s : LruState K V) : Op K V → Option (LruState K V)
  | .insert k v c => (insert s k v c).map Prod.fst
  | .get k => some (get s k).1
  | .erase k => some (erase s k)

/-- Run a sequence of operations. -/
def run (s : LruState K V) : List (Op K V) → Option (LruState K V)
  | [] => some s
  | op :: ops =>
      match step s op with
      | some t => run t ops
      | none => none

/-- The charge field an operation supplies (`1` for non-inserts). -/
def opCharge : Op K V → Nat
  | .insert _ _ c => c
  | .get _ => 1
  | .erase _ => 1

/-- Structural well-formedness tying index and recency list together: the
recency list has no duplicate keys and the index's keys are a permutation
of it. -/
@[reducible]
def WF (s : LruState K V) : Prop :=
  s.order.Nodup ∧ (s.table.map Prod.fst).Perm s.order

/-- Invariant used for the unit-charge capacity bound: well-formed state,
usage equal to the resident count, resident count within capacity, capacity
a genuine `usize`, and every stored charge equal to `1`. -/
def UnitInv (s : LruState K V) : Prop :=
  WF s ∧ s.usage = s.order.length ∧ s.order.length ≤ s.capacity ∧
    s.capacity < W ∧ ∀ e ∈ s.table, e.2.2 = 1

/-- Sample state: capacity 2, keys 2 (most recent) and 1 (least recent)
resident; the state `run (new 2) [insert 1 1 1, insert 2 2 5]` reaches. -/
def s21 : LruState Nat Nat :=
  { capacity := 2, order := [2, 1], table := [(2, 2, 5), (1, 1, 1)],
    usage := 6, evLog := [] }

/-- `s21` after `insert 3 3 1`: key 1 evicted, keys 3 and 2 resident. -/
def s21b : LruState Nat Nat :=
  { capacity := 2, order := [3, 2], table := [(3, 3, 1), (2, 2, 5)],
    usage := 6, evLog := [(1, 1)] }

theorem tableGet_isSome_iff {t : List (K × V × Nat)} {k : K} :
    (tableGet t k).isSome ↔ k ∈ t.map Prod.fst := by
  induction t with
  | nil => simp [tableGet]
  | cons e t ih =>
      by_cases h : e.1 = k
      · simp [tableGet, h]
      · rw [tableGet, if_neg h, List.map_cons]
        rw [List.mem_cons, ih]
        constructor
        · exact Or.inr
        · rintro (rfl | hk)
          · exact absurd rfl h
          · exact hk

theorem tableGet_eq_none_iff {t : List (K × V × Nat)} {k : K} :
    tableGet t k = none ↔ k ∉ t.map Prod.fst := by
  rw [← tableGet_isSome_iff, Option.not_isSome_iff_eq_none]

theorem mem_of_tableGet {t : List (K × V × Nat)} {k : K} {vc : V × Nat}
    (h : tableGet t k = some vc) : (k, vc) ∈ t := by
  induction t with
  | nil => simp [tableGet] at h
  | cons e t ih =>
      by_cases he : e.1 = k
      · rw [tableGet, if_pos he] at h
        refine List.mem_cons.2 (Or.inl ?_)
        obtain ⟨a, bc⟩ := e
        obtain rfl : a = k := he
        obtain rfl : bc = vc := Option.some.inj h
        rfl
      · rw [tableGet, if_neg he] at h
        exact List.mem_cons_of_mem _ (ih h)

theorem map_fst_tableRemove {t : List (K × V × Nat)} {k : K} :
    (tableRemove t k).map Prod.fst = (t.map Prod.fst).erase k := by
  induction t with
  | nil => simp [tableRemove]
  | cons e t ih =>
      by_cases h : e.1 = k
      · simp [tableRemove, h, List.erase_cons_head]
      · simp only [tableRemove, if_neg h, List.map_cons]
        rw [List.erase_cons_tail (by simpa using h), ih]

theorem tableRemove_of_not_mem {t : List (K × V × Nat)} {k : K}
    (h : k ∉ t.map Prod.fst) : tableRemove t k = t := by
  induction t with
  | nil => rfl
  | cons e t ih =>
      simp only [List.map_cons, List.mem_cons, not_or] at h
      have h1 : ¬e.1 = k := fun he => h.1 he.symm
      rw [tableRemove, if_neg h1, ih h.2]

theorem tableGet_tableRemove_self {t : List (K × V × Nat)} {k : K}
    (hnd : (t.map Prod.fst).Nodup) : tableGet (tableRemove t k) k = none := by
  induction t with
  | nil => rfl
  | cons e t ih =>
      simp only [List.map_cons, List.nodup_cons] at hnd
      by_cases h : e.1 = k
      · rw [tableRemove, if_pos h, tableGet_eq_none_iff]
        exact fun hk => hnd.1 (h ▸ hk)
      · rw [tableRemove, if_neg h, tableGet, if_neg h]
        exact ih hnd.2

theorem tableGet_tableInsert_self {t : List (K × V × Nat)} {k : K} {v : V}
    {c : Nat} : tableGet (tableInsert t k v c) k = some (v, c) := by
  simp [tableInsert, tableGet]

theorem map_fst_tableSetValue {t : List (K × V × Nat)} {k : K} {v : V} :
    (tableSetValue t k v).map Prod.fst = t.map Prod.fst := by
  induction t with
  | nil => rfl
  | cons e t ih =>
      by_cases h : e.1 = k <;> simp [tableSetValue, h, ih]

theorem tableGet_tableSetValue_self {t : List (K × V × Nat)} {k : K}
    {v w : V} {c : Nat} (h : tableGet t k = some (w, c)) :
    tableGet (tableSetValue t k v) k = some (v, c) := by
  induction t with
  | nil => simp [tableGet] at h
  | cons e t ih =>
      by_cases he : e.1 = k
      · rw [tableGet, if_pos he] at h
        have h2 : e.2 = (w, c) := Option.some.inj h
        rw [tableSetValue, if_pos he, tableGet, if_pos rfl, h2]
      · rw [tableGet, if_neg he] at h
        rw [tableSetValue, if_neg he, tableGet, if_neg he]
        exact ih h

theorem length_tableSetValue {t : List (K × V × Nat)} {k : K} {v : V} :
    (tableSetValue t k v).length = t.length := by
  induction t with
  | nil => rfl
  | cons e t ih =>
      by_cases h : e.1 = k <;> simp [tableSetValue, h, ih]

theorem length_tableRemove_of_mem {t : List (K × V × Nat)} {k : K}
    {vc : V × Nat} (h : tableGet t k = some vc) :
    (tableRemove t k).length + 1 = t.length := by
  induction t with
  | nil => simp [tableGet] at h
  | cons e t ih =>
      by_cases he : e.1 = k
      · simp [tableRemove, he]
      · rw [tableGet, if_neg he] at h
        simp [tableRemove, he, ih h]

theorem mem_tableRemove {t : List (K × V × Nat)} {k : K} {e : K × V × Nat}
    (h : e ∈ tableRemove t k) : e ∈ t := by
  induction t with
  | nil => simp [tableRemove] at h
  | cons e₀ t ih =>
      by_cases he : e₀.1 = k
      · rw [tableRemove, if_pos he] at h
        exact List.mem_cons_of_mem _ h
      · rw [tableRemove, if_neg he] at h
        rcases List.mem_cons.1 h with h | h
        · exact h ▸ List.mem_cons_self _ _
        · exact List.mem_cons_of_mem _ (ih h)

theorem mem_tableSetValue {t : List (K × V × Nat)} {k : K} {v : V}
    {e : K × V × Nat} (h : e ∈ tableSetValue t k v) :
    e ∈ t ∨ ∃ w c, (k, w, c) ∈ t ∧ e = (k, v, c) := by
  induction t with
  | nil => simp [tableSetValue] at h
  | cons e₀ t ih =>
      by_cases he : e₀.1 = k
      · rw [tableSetValue, if_pos he] at h
        rcases List.mem_cons.1 h with h | h
        · refine Or.inr ⟨e₀.2.1, e₀.2.2, ?_, h⟩
          have h2 : (k, e₀.2.1, e₀.2.2) = e₀ := by
            obtain ⟨a, b, c⟩ := e₀
            obtain rfl : a = k := he
            rfl
          rw [h2]
          exact List.mem_cons_self _ _
        · exact Or.inl (List.mem_cons_of_mem _ h)
      · rw [tableSetValue, if_neg he] at h
        rcases List.mem_cons.1 h with h | h
        · exact Or.inl (h ▸ List.mem_cons_self _ _)
        · rcases ih h with h | ⟨w, c, hm, he'⟩
          · exact Or.inl (List.mem_cons_of_mem _ h)
          · exact Or.inr ⟨w, c, List.mem_cons_of_mem _ hm, he'⟩

theorem insert_hit {s : LruState K V} {k : K} {v w : V} {c c₀ : Nat}
    (hcap : 0 < s.capacity) (hget : tableGet s.table k = some (w, c₀)) :
    insert s k v c =
      some ({ s with
                table := tableSetValue s.table k v
                order := k :: s.order.erase k
                evLog := s.evLog ++ [(k, w)] },
            some w) := by
  rw [insert, if_pos hcap, hget]

theorem insert_miss_room {s : LruState K V} {k : K} {v : V} {c : Nat}
    (hcap : 0 < s.capacity) (hget : tableGet s.table k = none)
    (hroom : s.usage < s.capacity) :
    insert s k v c =
      some ({ s with
                table := tableInsert s.table k v c
                order := k :: s.order
                usage := wadd s.usage c },
            none) := by
  rw [insert, if_pos hcap, hget, if_neg (Nat.not_le.2 hroom)]

theorem insert_miss_full {s : LruState K V} {k victim : K} {v w : V}
    {c cv : Nat} (hcap : 0 < s.capacity) (hget : tableGet s.table k = none)
    (hfull : s.capacity ≤ s.usage) (hlast : s.order.getLast? = some victim)
    (hvic : tableGet s.table victim = some (w, cv)) :
    insert s k v c =
      some ({ s with
                table := tableInsert (tableRemove s.table victim) k v cv
                order := k :: s.order.erase victim
                usage := wadd (wsub s.usage cv) c
                evLog := s.evLog ++ [(victim, w)] },
            none) := by
  simp [insert, hget, hlast, hvic, hcap, hfull]

/-- Inversion for a completed (non-panicking) `insert`: the zero-capacity
no-op, the hit path, the miss path with room, or the miss path with a
single eviction. -/
theorem insert_cases {s : LruState K V} {k : K} {v : V} {c : Nat}
    {p : LruState K V × Option V} (h : insert s k v c = some p) :
    (s.capacity = 0 ∧ p = (s, none)) ∨
    (∃ w c₀, 0 < s.capacity ∧ tableGet s.table k = some (w, c₀) ∧
      p = ({ s with
               table := tableSetValue s.table k v
               order := k :: s.order.erase k
               evLog := s.evLog ++ [(k, w)] },
           some w)) ∨
    (0 < s.capacity ∧ tableGet s.table k = none ∧ s.usage < s.capacity ∧
      p = ({ s with
               table := tableInsert s.table k v c
               order := k :: s.order
               usage := wadd s.usage c },
           none)) ∨
    (∃ victim w cv, 0 < s.capacity ∧ tableGet s.table k = none ∧
      s.capacity ≤ s.usage ∧ s.order.getLast? = some victim ∧
      tableGet s.table victim = some (w, cv) ∧
      p = ({ s with
               table := tableInsert (tableRemove s.table victim) k v cv
               order := k :: s.order.erase victim
               usage := wadd (wsub s.usage cv) c
               evLog := s.evLog ++ [(victim, w)] },
           none)) := by
  by_cases hcap : 0 < s.capacity
  · cases hget : tableGet s.table k with
    | some wc =>
        obtain ⟨w, c₀⟩ := wc
        rw [insert_hit hcap hget] at h
        exact Or.inr (Or.inl ⟨w, c₀, hcap, rfl, (Option.some.inj h).symm⟩)
    | none =>
        by_cases hfull : s.capacity ≤ s.usage
        · cases hlast : s.order.getLast? with
          | none => simp [insert, hget, hlast, hcap, hfull] at h
          | some victim =>
              cases hvic : tableGet s.table victim with
              | none => simp [insert, hget, hlast, hvic, hcap, hfull] at h
              | some wc =>
                  obtain ⟨w, cv⟩ := wc
                  rw [insert_miss_full hcap hget hfull hlast hvic] at h
                  exact Or.inr (Or.inr (Or.inr ⟨victim, w, cv, hcap, rfl,
                    hfull, rfl, hvic, (Option.some.inj h).symm⟩))
        · rw [insert_miss_room hcap hget (Nat.not_le.1 hfull)] at h
          exact Or.inr (Or.inr (Or.inl ⟨hcap, rfl, Nat.not_le.1 hfull,
            (Option.some.inj h).symm⟩))
  · rw [insert, if_neg hcap] at h
    exact Or.inl ⟨Nat.eq_zero_of_not_pos hcap, (Option.some.inj h).symm⟩

theorem WF_new (cap : Nat) : WF (new cap : LruState K V) := by
  constructor <;> simp [new]

theorem WF_get {s : LruState K V} (hWF : WF s) (k : K) : WF (get s k).1 := by
  rcases hWF with ⟨hnd, hperm⟩
  cases hget : tableGet s.table k with
  | none => rw [get, hget]; exact ⟨hnd, hperm⟩
  | some vc =>
      have hmem : k ∈ s.order := by
        have := tableGet_isSome_iff (t := s.table) (k := k)
        rw [hget] at this
        exact hperm.mem_iff.1 (this.1 rfl)
      rw [get, hget]
      refine ⟨?_, ?_⟩
      · exact List.nodup_cons.2 ⟨fun hk =>
          ((hnd.mem_erase_iff).1 hk).1 rfl, hnd.erase k⟩
      · exact hperm.trans (List.perm_cons_erase hmem)

theorem WF_erase {s : LruState K V} (hWF : WF s) (k : K) : WF (erase s k) := by
  rcases hWF with ⟨hnd, hperm⟩
  cases hget : tableGet s.table k with
  | none => rw [erase, hget]; exact ⟨hnd, hperm⟩
  | some vc =>
      rw [erase, hget]
      refine ⟨hnd.erase k, ?_⟩
      show ((tableRemove s.table k).map Prod.fst).Perm (s.order.erase k)
      rw [map_fst_tableRemove]
      exact hperm.erase k

theorem WF_insert {s : LruState K V} {k : K} {v : V} {c : Nat}
    {p : LruState K V × Option V} (hWF : WF s)
    (h : insert s k v c = some p) : WF p.1 := by
  rcases hWF with ⟨hnd, hperm⟩
  rcases insert_cases h with ⟨_, rfl⟩ | ⟨w, c₀, _, hget, rfl⟩ |
    ⟨_, hget, _, rfl⟩ | ⟨victim, w, cv, _, hget, _, hlast, hvic, rfl⟩
  · exact ⟨hnd, hperm⟩
  · have hmem : k ∈ s.order := by
      have := tableGet_isSome_iff (t := s.table) (k := k)
      rw [hget] at this
      exact hperm.mem_iff.1 (this.1 rfl)
    refine ⟨?_, ?_⟩
    · exact List.nodup_cons.2 ⟨fun hk =>
        ((hnd.mem_erase_iff).1 hk).1 rfl, hnd.erase k⟩
    · show ((tableSetValue s.table k v).map Prod.fst).Perm (k :: s.order.erase k)
      rw [map_fst_tableSetValue]
      exact hperm.trans (List.perm_cons_erase hmem)
  · have hkeys : k ∉ s.table.map Prod.fst := tableGet_eq_none_iff.1 hget
    have hmem : k ∉ s.order := fun hk => hkeys (hperm.mem_iff.2 hk)
    refine ⟨List.nodup_cons.2 ⟨hmem, hnd⟩, ?_⟩
    show ((tableInsert s.table k v c).map Prod.fst).Perm (k :: s.order)
    rw [tableInsert, List.map_cons, tableRemove_of_not_mem hkeys]
    exact hperm.cons k
  · have hkeys : k ∉ s.table.map Prod.fst := tableGet_eq_none_iff.1 hget
    have hmem : k ∉ s.order := fun hk => hkeys (hperm.mem_iff.2 hk)
    have hknr : k ∉ (tableRemove s.table victim).map Prod.fst := by
      rw [map_fst_tableRemove]
      exact fun hk => hkeys (List.mem_of_mem_erase hk)
    refine ⟨?_, ?_⟩
    · exact List.nodup_cons.2
        ⟨fun hk => hmem (List.mem_of_mem_erase hk), hnd.erase victim⟩
    · show ((tableInsert (tableRemove s.table victim) k v cv).map
        Prod.fst).Perm (k :: s.order.erase victim)
      rw [tableInsert, List.map_cons, tableRemove_of_not_mem hknr,
        map_fst_tableRemove]
      exact (hperm.erase victim).cons k

theorem WF_step {s t : LruState K V} {op : Op K V} (hWF : WF s)
    (h : step s op = some t) : WF t := by
  cases op with
  | insert k v c =>
      rw [step] at h
      cases hins : insert s k v c with
      | none => rw [hins] at h; cases h
      | some p =>
          rw [hins] at h
          cases h
          exact WF_insert hWF hins
  | get k =>
      cases h
      exact WF_get hWF k
  | erase k =>
      cases h
      exact WF_erase hWF k

theorem WF_run {s t : LruState K V} {ops : List (Op K V)} (hWF : WF s)
    (h : run s ops = some t) : WF t := by
  induction ops generalizing s with
  | nil => cases h; exact hWF
  | cons op ops ih =>
      rw [run] at h
      cases hstep : step s op with
      | none => rw [hstep] at h; cases h
      | some u =>
          rw [hstep] at h
          exact ih (WF_step hWF hstep) h

theorem wadd_eq {a b : Nat} (h : a + b < W) : wadd a b = a + b :=
  Nat.mod_eq_of_lt h

theorem wsub_eq {a b : Nat} (hba : b ≤ a) (haW : a < W) : wsub a b = a - b := by
  have hbW : b < W := Nat.lt_of_le_of_lt hba haW
  rw [wsub, Nat.mod_eq_of_lt hbW]
  have h1 : a + (W - b) = (a - b) + W := by omega
  rw [h1, Nat.add_mod_right, Nat.mod_eq_of_lt (by omega)]

theorem getLast?_mem {l : List K} {a : K} (h : l.getLast? = some a) :
    a ∈ l := by
  obtain ⟨hne, rfl⟩ := List.mem_getLast?_eq_getLast h
  exact List.getLast_mem hne

theorem getLast?_not_mem_dropLast {l : List K} {a : K} (hnd : l.Nodup)
    (h : l.getLast? = some a) : a ∉ l.dropLast := by
  intro hmem
  have heq : l.dropLast ++ [a] = l := List.dropLast_append_getLast? a h
  rw [← heq] at hnd
  rcases List.nodup_append.1 hnd with ⟨-, -, hdisj⟩
  exact hdisj hmem (List.mem_singleton_self a)

theorem mem_order_of_tableGet {s : LruState K V} {k : K} {vc : V × Nat}
    (hWF : WF s) (h : tableGet s.table k = some vc) : k ∈ s.order := by
  have hs := tableGet_isSome_iff (t := s.table) (k := k)
  rw [h] at hs
  exact hWF.2.mem_iff.1 (hs.1 rfl)

theorem not_mem_order_of_tableGet {s : LruState K V} {k : K}
    (hWF : WF s) (h : tableGet s.table k = none) : k ∉ s.order := by
  intro hk
  have hs := tableGet_isSome_iff (t := s.table) (k := k)
  rw [h] at hs
  have := hs.2 (hWF.2.mem_iff.2 hk)
  simp at this

theorem erase_hit {s : LruState K V} {k : K} {vc : V × Nat}
    (hget : tableGet s.table k = some vc) :
    erase s k =
      { s with
          table := tableRemove s.table k
          order := s.order.erase k
          usage := wsub s.usage vc.2
          evLog := s.evLog ++ [(k, vc.1)] } := by
  rw [erase, hget]

theorem erase_miss {s : LruState K V} {k : K}
    (hget : tableGet s.table k = none) : erase s k = s := by
  rw [erase, hget]

theorem insert_capacity {s : LruState K V} {k : K} {v : V} {c : Nat}
    {p : LruState K V × Option V} (h : insert s k v c = some p) :
    p.1.capacity = s.capacity := by
  rcases insert_cases h with ⟨-, rfl⟩ | ⟨w, c₀, -, -, rfl⟩ |
    ⟨-, -, -, rfl⟩ | ⟨victim, w, cv, -, -, -, -, -, rfl⟩ <;> rfl

theorem step_capacity {s t : LruState K V} {op : Op K V}
    (h : step s op = some t) : t.capacity = s.capacity := by
  cases op with
  | insert k v c =>
      rw [step] at h
      cases hins : insert s k v c with
      | none => rw [hins] at h; cases h
      | some p => rw [hins] at h; cases h; exact insert_capacity hins
  | get k =>
      cases h
      cases hget : tableGet s.table k with
      | none => rw [get, hget]
      | some vc => rw [get, hget]
  | erase k =>
      cases h
      cases hget : tableGet s.table k with
      | none => rw [erase, hget]
      | some vc => rw [erase, hget]

theorem run_capacity {s t : LruState K V} {ops : List (Op K V)}
    (h : run s ops = some t) : t.capacity = s.capacity := by
  induction ops generalizing s with
  | nil => cases h; rfl
  | cons op ops ih =>
      rw [run] at h
      cases hstep : step s op with
      | none => rw [hstep] at h; cases h
      | some u =>
          rw [hstep] at h
          rw [ih h, step_capacity hstep]

theorem UnitInv_get {s : LruState K V} (h : UnitInv s) (k : K) :
    UnitInv (get s k).1 := by
  obtain ⟨hWF, husage, hlen, hcapW, hch⟩ := h
  cases hget : tableGet s.table k with
  | none => rw [get, hget]; exact ⟨hWF, husage, hlen, hcapW, hch⟩
  | some vc =>
      have hmem : k ∈ s.order := mem_order_of_tableGet hWF hget
      have hpos : 0 < s.order.length := List.length_pos_of_mem hmem
      have hlen' : (k :: s.order.erase k).length = s.order.length := by
        rw [List.length_cons, List.length_erase_of_mem hmem]
        omega
      have hWF' := WF_get hWF k
      rw [get, hget] at hWF' ⊢
      exact ⟨hWF', by rw [hlen']; exact husage, by rw [hlen']; exact hlen,
        hcapW, hch⟩

theorem UnitInv_erase {s : LruState K V} (h : UnitInv s) (k : K) :
    UnitInv (erase s k) := by
  obtain ⟨hWF, husage, hlen, hcapW, hch⟩ := h
  cases hget : tableGet s.table k with
  | none => rw [erase_miss hget]; exact ⟨hWF, husage, hlen, hcapW, hch⟩
  | some vc =>
      have hmem : k ∈ s.order := mem_order_of_tableGet hWF hget
      have hpos : 0 < s.order.length := List.length_pos_of_mem hmem
      have hc1 : vc.2 = 1 := hch _ (mem_of_tableGet hget)
      rw [erase_hit hget]
      refine ⟨?_, ?_, ?_, hcapW, ?_⟩
      · have hWF' := WF_erase hWF k
        rw [erase_hit hget] at hWF'
        exact hWF'
      · show wsub s.usage vc.2 = (s.order.erase k).length
        rw [hc1, wsub_eq (by omega) (by omega),
          List.length_erase_of_mem hmem, husage]
      · show (s.order.erase k).length ≤ s.capacity
        rw [List.length_erase_of_mem hmem]
        omega
      · exact fun e he => hch e (mem_tableRemove he)

theorem UnitInv_insert {s : LruState K V} {k : K} {v : V}
    {p : LruState K V × Option V} (h : UnitInv s)
    (hins : insert s k v 1 = some p) : UnitInv p.1 := by
  obtain ⟨hWF, husage, hlen, hcapW, hch⟩ := h
  have hWF' := WF_insert hWF hins
  rcases insert_cases hins with ⟨-, rfl⟩ | ⟨w, c₀, -, hget, rfl⟩ |
    ⟨-, hget, hroom, rfl⟩ | ⟨victim, w, cv, hcap, hget, hfull, hlast, hvic, rfl⟩
  · exact ⟨hWF, husage, hlen, hcapW, hch⟩
  · have hmem : k ∈ s.order := mem_order_of_tableGet hWF hget
    have hpos : 0 < s.order.length := List.length_pos_of_mem hmem
    have hlen' : (k :: s.order.erase k).length = s.order.length := by
      rw [List.length_cons, List.length_erase_of_mem hmem]
      omega
    refine ⟨hWF', ?_, ?_, hcapW, ?_⟩
    · show s.usage = (k :: s.order.erase k).length
      rw [hlen']
      exact husage
    · show (k :: s.order.erase k).length ≤ s.capacity
      rw [hlen']
      exact hlen
    · intro e he
      rcases mem_tableSetValue he with he | ⟨w₂, c₂, hm, rfl⟩
      · exact hch e he
      · exact hch (k, w₂, c₂) hm
  · rw [husage] at hroom
    refine ⟨hWF', ?_, ?_, hcapW, ?_⟩
    · show wadd s.usage 1 = (k :: s.order).length
      rw [husage, wadd_eq (by omega), List.length_cons]
    · show (k :: s.order).length ≤ s.capacity
      rw [List.length_cons]
      omega
    · intro e he
      rw [tableInsert] at he
      rcases List.mem_cons.1 he with rfl | he
      · rfl
      · exact hch e (mem_tableRemove he)
  · have hmemv : victim ∈ s.order := getLast?_mem hlast
    have hpos : 0 < s.order.length := List.length_pos_of_mem hmemv
    have hcv1 : cv = 1 := hch _ (mem_of_tableGet hvic)
    have husage' : s.usage = s.capacity := by omega
    refine ⟨hWF', ?_, ?_, hcapW, ?_⟩
    · show wadd (wsub s.usage cv) 1 = (k :: s.order.erase victim).length
      rw [husage', hcv1, wsub_eq (by omega) (by omega),
        wadd_eq (by omega), List.length_cons,
        List.length_erase_of_mem hmemv]
      omega
    · show (k :: s.order.erase victim).length ≤ s.capacity
      rw [List.length_cons, List.length_erase_of_mem hmemv]
      omega
    · intro e he
      rw [tableInsert] at he
      rcases List.mem_cons.1 he with rfl | he
      · exact hcv1
      · exact hch e (mem_tableRemove (mem_tableRemove he))

theorem UnitInv_step {s t : LruState K V} {op : Op K V} (h : UnitInv s)
    (hc : opCharge op = 1) (hstep : step s op = some t) : UnitInv t := by
  cases op with
  | insert k v c =>
      rw [step] at hstep
      cases hins : insert s k v c with
      | none => rw [hins] at hstep; cases hstep
      | some p =>
          rw [hins] at hstep
          cases hstep
          rw [opCharge] at hc
          exact UnitInv_insert h (hc ▸ hins)
  | get k =>
      cases hstep
      exact UnitInv_get h k
  | erase k =>
      cases hstep
      exact UnitInv_erase h k

theorem UnitInv_run {s t : LruState K V} {ops : List (Op K V)} (h : UnitInv s)
    (hc : ∀ op ∈ ops, opCharge op = 1) (hrun : run s ops = some t) :
    UnitInv t := by
  induction ops generalizing s with
  | nil => cases hrun; exact h
  | cons op ops ih =>
      rw [run] at hrun
      cases hstep : step s op with
      | none => rw [hstep] at hrun; cases hrun
      | some u =>
          rw [hstep] at hrun
          exact ih (UnitInv_step h (hc op (List.mem_cons_self op ops)) hstep)
            (fun o ho => hc o (List.mem_cons_of_mem op ho)) hrun

theorem UnitInv_new {cap : Nat} (hcapW : cap < W) :
    UnitInv (new cap : LruState K V) := by
  refine ⟨WF_new cap, rfl, ?_, hcapW, ?_⟩ <;> simp [new]

theorem get_snd_eq {s : LruState K V} {k : K} {v : V} {c₀ : Nat}
    (h : tableGet s.table k = some (v, c₀)) : (get s k).2 = some v := by
  rw [get, h]

theorem get_miss_snd {s : LruState K V} {k : K}
    (h : tableGet s.table k = none) : (get s k).2 = none := by
  rw [get, h]

/-- C1: for every cache with capacity > 0, immediately after a completed
`insert(k, v, c)` a call `get(&k)` returns `Some(v)`; and `get` on a key
that is not resident returns `None`. -/
theorem c1_get_after_insert (s : LruState K V) (k : K) (v : V) (c : Nat)
    (s' : LruState K V) (r : Option V) (hcap : 0 < s.capacity)
    (hins : insert s k v c = some (s', r)) (s₂ : LruState K V) (k₂ : K)
    (habs : tableGet s₂.table k₂ = none) :
    (get s' k).2 = some v ∧ (get s₂ k₂).2 = none := by
  refine ⟨?_, get_miss_snd habs⟩
  rcases insert_cases hins with ⟨hc0, -⟩ | ⟨w, c₀, -, hget, heq⟩ |
    ⟨-, -, -, heq⟩ | ⟨victim, w, cv, -, -, -, -, -, heq⟩
  · omega
  · injection heq with h1 h2
    subst h1
    exact get_snd_eq (tableGet_tableSetValue_self hget)
  · injection heq with h1 h2
    subst h1
    exact get_snd_eq tableGet_tableInsert_self
  · injection heq with h1 h2
    subst h1
    exact get_snd_eq tableGet_tableInsert_self

/-- C1 witness: on a fresh cache of capacity 1, after `insert 5 7 1` the
key 5 reads back as 7, and the never-inserted key 9 reads as `None`. -/
theorem c1_witness :
    (get (⟨1, [5], [(5, 7, 1)], 1, []⟩ : LruState Nat Nat) 5).2 = some 7 ∧
    (get (new 1 : LruState Nat Nat) 9).2 = none :=
  c1_get_after_insert (new 1) 5 7 1 ⟨1, [5], [(5, 7, 1)], 1, []⟩ none
    (by decide) (by decide) (new 1) 9 (by decide)

/-- C9: `erase` on a resident key removes it from the index, unlinks it
from the recency list, subtracts the entry's stored charge from the usage
counter, and invokes the eviction hook exactly once with the key and the
stored value; `erase` on an absent key leaves the state unchanged (and so
does not invoke the hook). -/
theorem c9_erase_spec (s : LruState K V) (k : K) (hWF : WF s) :
    (∀ v c₀, tableGet s.table k = some (v, c₀) →
       tableGet (erase s k).table k = none ∧
       k ∉ (erase s k).order ∧
       (erase s k).usage = wsub s.usage c₀ ∧
       (erase s k).evLog = s.evLog ++ [(k, v)] ∧
       (erase s k).table.length + 1 = s.table.length) ∧
    (tableGet s.table k = none → erase s k = s) := by
  refine ⟨?_, erase_miss⟩
  intro v c₀ hget
  rw [erase_hit hget]
  refine ⟨?_, ?_, rfl, rfl, ?_⟩
  · show tableGet (tableRemove s.table k) k = none
    exact tableGet_tableRemove_self (hWF.2.nodup_iff.2 hWF.1)
  · show k ∉ s.order.erase k
    exact fun hk => ((hWF.1.mem_erase_iff).1 hk).1 rfl
  · show (tableRemove s.table k).length + 1 = s.table.length
    exact length_tableRemove_of_mem hget

/-- C9 witness: erasing the resident key 1 from `s21` logs exactly the one
hook invocation `(1, 1)`. -/
theorem c9_witness : (erase s21 1).evLog = s21.evLog ++ [(1, 1)] :=
  ((c9_erase_spec s21 1 (by decide)).1 1 1 (by decide)).2.2.2.1

/-- C10: an `insert` that finds the key resident leaves `total_charge`
unchanged and keeps the entry's previously stored charge: the `charge`
argument of a hit insert is ignored. -/
theorem c10_hit_insert_ignores_charge (s : LruState K V) (k : K) (v w : V)
    (c c₀ : Nat) (hcap : 0 < s.capacity)
    (hget : tableGet s.table k = some (w, c₀)) :
    ∃ s', insert s k v c = some (s', some w) ∧
      total_charge s' = total_charge s ∧
      tableGet s'.table k = some (v, c₀) :=
  ⟨_, insert_hit hcap hget, rfl, tableGet_tableSetValue_self hget⟩

/-- C10 witness: a hit insert on key 2 of `s21` with charge 7 keeps the
stored charge 5 and the usage 6. -/
theorem c10_witness :
    ∃ s', insert s21 2 9 7 = some (s', some 2) ∧
      total_charge s' = total_charge s21 ∧
      tableGet s'.table 2 = some (9, 5) :=
  c10_hit_insert_ignores_charge s21 2 9 2 7 5 (by decide) (by decide)

/-- C4 counterexample: with capacity 100, after `insert(1, 10, 1)` a second
`insert(1, 20, 5)` leaves the stored charge at 1, not at the claimed most
recently supplied charge 5. -/
theorem c4_counterexample :
    (run (new 100 : LruState Nat Nat)
        [Op.insert 1 10 1, Op.insert 1 20 5]).map
        (fun s => tableGet s.table 1) = some (some (20, 1)) ∧
      (1 : Nat) ≠ 5 :=
  ⟨by decide, by decide⟩

/-- C4 amended: a hit `insert(k, v, c)` replaces the stored value in place
but keeps the previously stored charge (the `charge` argument is ignored),
promotes the key to most-recently-used, invokes the eviction hook once with
`(k, old_value)`, returns `Some(old_value)`, and neither changes the
resident entry count nor the usage, and evicts nothing. -/
theorem c4_hit_insert_keeps_charge (s : LruState K V) (k : K) (v w : V)
    (c c₀ : Nat) (hcap : 0 < s.capacity)
    (hget : tableGet s.table k = some (w, c₀)) :
    ∃ s', insert s k v c = some (s', some w) ∧
      tableGet s'.table k = some (v, c₀) ∧
      s'.order = k :: s.order.erase k ∧
      s'.evLog = s.evLog ++ [(k, w)] ∧
      s'.usage = s.usage ∧
      s'.table.length = s.table.length :=
  ⟨_, insert_hit hcap hget, tableGet_tableSetValue_self hget, rfl, rfl, rfl,
    length_tableSetValue⟩

/-- C4 witness: the amended hit-insert contract at a concrete input:
capacity 100, key 1 resident with value 10 and charge 1, overwritten by
`insert(1, 20, 5)`. -/
theorem c4_witness :
    ∃ s', insert (⟨100, [1], [(1, 10, 1)], 1, []⟩ : LruState Nat Nat)
        1 20 5 = some (s', some 10) ∧
      tableGet s'.table 1 = some (20, 1) ∧
      s'.order = 1 :: ([1] : List Nat).erase 1 ∧
      s'.evLog = [] ++ [(1, 10)] ∧
      s'.usage = 1 ∧
      s'.table.length = ([(1, 10, 1)] : List (Nat × Nat × Nat)).length :=
  c4_hit_insert_keeps_charge ⟨100, [1], [(1, 10, 1)], 1, []⟩ 1 20 10 5 1
    (by decide) (by decide)

/-- C2 counterexample: with capacity 1, the single operation
`insert(1, 1, 2)` drives `total_charge` to 2 > 1: the miss path only evicts
when `usage >= capacity` held before the insert, so one oversized insert
exceeds the capacity. -/
theorem c2_counterexample :
    (run (new 1 : LruState Nat Nat) [Op.insert 1 1 2]).map total_charge =
      some 2 ∧ ¬(2 ≤ 1) :=
  ⟨by decide, by decide⟩

/-- C2 amended: for every cache with capacity > 0 and every operation
sequence in which every insert carries charge exactly 1, `total_charge`
stays within the capacity after every operation. -/
theorem c2_total_charge_le_capacity_unit (cap : Nat) (ops : List (Op K V))
    (s : LruState K V) (hcap : 0 < cap) (hcapW : cap < W)
    (hunit : ∀ op ∈ ops, opCharge op = 1)
    (hrun : run (new cap) ops = some s) : total_charge s ≤ cap := by
  have h := UnitInv_run (UnitInv_new hcapW) hunit hrun
  have hc : s.capacity = cap := run_capacity hrun
  have h1 := h.2.1
  have h2 := h.2.2.1
  rw [total_charge]
  omega

/-- C2 witness: the amended bound at capacity 1 after one unit insert. -/
theorem c2_witness :
    total_charge (⟨1, [1], [(1, 1, 1)], 1, []⟩ : LruState Nat Nat) ≤ 1 :=
  c2_total_charge_le_capacity_unit 1 [Op.insert 1 1 1] ⟨1, [1], [(1, 1, 1)], 1, []⟩
    (by decide) (by decide) (by decide) (by decide)

/-- C3 counterexample: with capacity 2, after `insert(1,1,1)`,
`insert(2,2,5)`, `insert(3,3,1)` the hook log holds the single eviction
`(1, 1)` while `total_charge` is 6 ≥ capacity 2 with two resident entries —
the claimed while-loop would have evicted key 2 as well. -/
theorem c3_counterexample :
    (run (new 2 : LruState Nat Nat)
        [Op.insert 1 1 1, Op.insert 2 2 5, Op.insert 3 3 1]).map
        (fun s => (s.evLog, total_charge s, s.order)) =
      some ([(1, 1)], 6, [3, 2]) ∧ (2 : Nat) ≤ 6 :=
  ⟨by decide, by decide⟩

/-- C3 amended: eviction on insert of a non-resident key is one conditional
step, not a loop: when `usage >= capacity`, exactly the one current tail
victim is removed from the index, `usage` is decremented by its stored
charge (then incremented by the new charge), and the hook is invoked
exactly once with the evicted pair; at most one eviction happens per
insert, so `usage` may remain at or above `capacity` afterwards. -/
theorem c3_single_eviction (s : LruState K V) (k : K) (v : V) (c : Nat)
    (s' : LruState K V) (hWF : WF s) (hcap : 0 < s.capacity)
    (habs : tableGet s.table k = none) (hfull : s.capacity ≤ s.usage)
    (hins : insert s k v c = some (s', none)) :
    ∃ victim w cv, s.order.getLast? = some victim ∧
      tableGet s.table victim = some (w, cv) ∧
      s'.evLog = s.evLog ++ [(victim, w)] ∧
      victim ≠ k ∧
      tableGet s'.table victim = none ∧
      s'.usage = wadd (wsub s.usage cv) c ∧
      s'.order = k :: s.order.erase victim := by
  rcases insert_cases hins with ⟨hc0, -⟩ | ⟨w, c₀, -, hget, -⟩ |
    ⟨-, -, hroom, -⟩ | ⟨victim, w, cv, -, -, -, hlast, hvic, heq⟩
  · omega
  · rw [habs] at hget
    exact Option.noConfusion hget
  · omega
  · injection heq with h1 h2
    subst h1
    have hvk : victim ≠ k := by
      intro hvk
      rw [hvk, habs] at hvic
      exact Option.noConfusion hvic
    refine ⟨victim, w, cv, hlast, hvic, rfl, hvk, ?_, rfl, rfl⟩
    show tableGet (tableInsert (tableRemove s.table victim) k v cv)
      victim = none
    have hknr : k ∉ (tableRemove s.table victim).map Prod.fst := by
      rw [map_fst_tableRemove]
      exact fun hk =>
        (tableGet_eq_none_iff.1 habs) (List.mem_of_mem_erase hk)
    rw [tableInsert, tableGet, if_neg (fun h => hvk h.symm),
      tableRemove_of_not_mem hknr]
    exact tableGet_tableRemove_self (hWF.2.nodup_iff.2 hWF.1)

/-- C3 witness: the single-eviction contract applied to `s21` (usage 6 ≥
capacity 2) under `insert(3, 3, 1)`, reaching `s21b`. -/
theorem c3_witness :
    ∃ victim w cv, s21.order.getLast? = some victim ∧
      tableGet s21.table victim = some (w, cv) ∧
      s21b.evLog = s21.evLog ++ [(victim, w)] ∧
      victim ≠ 3 ∧
      tableGet s21b.table victim = none ∧
      s21b.usage = wadd (wsub s21.usage cv) 1 ∧
      s21b.order = 3 :: s21.order.erase victim :=
  c3_single_eviction s21 3 3 1 s21b (by decide) (by decide) (by decide)
    (by decide) (by decide)

/-- C5: after capacity-1 operations `insert(1, 10, 1)` then
`insert(2, 20, 5)`, `total_charge` is 5 but the sum of the stored charge
fields over the resident entries is 1: the eviction path reuses the
victim's node for the new entry without overwriting its `charge` field,
while the usage counter is incremented by the new charge. -/
theorem c5_usage_ne_charge_sum :
    (run (new 1 : LruState Nat Nat)
        [Op.insert 1 10 1, Op.insert 2 20 5]).map
        (fun s => (total_charge s, (s.table.map (fun e => e.2.2)).sum)) =
      some (5, 1) ∧ (5 : Nat) ≠ 1 :=
  ⟨by decide, by decide⟩

/-- C7: a zero-capacity cache is inert: every operation sequence completes
and leaves the cache in its initial state, `insert` always returns `None`
without storing anything or invoking the hook, `get` always returns `None`,
and `total_charge` is always 0. -/
theorem c7_zero_capacity (ops : List (Op K V)) (k : K) (v : V) (c : Nat) :
    run (new 0 : LruState K V) ops = some (new 0) ∧
    insert (new 0 : LruState K V) k v c = some (new 0, none) ∧
    get (new 0 : LruState K V) k = (new 0, none) ∧
    total_charge (new 0 : LruState K V) = 0 ∧
    (new 0 : LruState K V).evLog = [] := by
  refine ⟨?_, rfl, rfl, rfl, rfl⟩
  induction ops with
  | nil => rfl
  | cons op ops ih =>
      rw [run]
      have hstep : step (new 0 : LruState K V) op = some (new 0) := by
        cases op <;> rfl
      rw [hstep]
      exact ih

/-- C8: after every operation sequence the hash index holds at most one
entry per key, its size equals the recency-list length, and a key is in the
index exactly when it is linked in the recency list. -/
theorem c8_index_matches_list (cap : Nat) (ops : List (Op K V))
    (s : LruState K V) (hrun : run (new cap) ops = some s) :
    (s.table.map Prod.fst).Nodup ∧ s.table.length = s.order.length ∧
    ∀ k, (tableGet s.table k).isSome ↔ k ∈ s.order := by
  have hWF := WF_run (WF_new cap) hrun
  refine ⟨hWF.2.nodup_iff.2 hWF.1, ?_, ?_⟩
  · have h := hWF.2.length_eq
    rw [List.length_map] at h
    exact h
  · intro k
    rw [tableGet_isSome_iff]
    exact hWF.2.mem_iff

/-- C8 witness: index keys after `insert 1 1 1` on a fresh capacity-1
cache are duplicate-free. -/
theorem c8_witness :
    (([((1 : Nat), (1 : Nat), (1 : Nat))].map Prod.fst).Nodup) :=
  (c8_index_matches_list 1 [Op.insert 1 1 1]
    ⟨1, [1], [(1, 1, 1)], 1, []⟩ (by decide)).1

/-- C6: after a `get(k)` hit or a completed `insert` on `k`, the entry for
`k` is most-recently-used (the list head, adjacent to the head sentinel);
and an eviction always takes the entry adjacent to the tail sentinel
(`s.order.getLast?`), so it never selects `k` while a less-recently-used
resident (an entry strictly before the tail position) keeps `k` off the
tail. -/
theorem c6_mru_and_tail_victim (s : LruState K V) (k : K) (hWF : WF s) :
    (∀ v, (get s k).2 = some v → (get s k).1.order.head? = some k) ∧
    (∀ v c s' r, insert s k v c = some (s', r) → 0 < s.capacity →
       s'.order.head? = some k) ∧
    (∀ k₂ v c s', insert s k₂ v c = some (s', none) →
       tableGet s.table k₂ = none → s.capacity ≤ s.usage →
       0 < s.capacity →
       ∃ victim w, s.order.getLast? = some victim ∧
         s'.evLog = s.evLog ++ [(victim, w)] ∧
         (k ∈ s.order.dropLast → victim ≠ k)) := by
  refine ⟨?_, ?_, ?_⟩
  · intro v hv
    cases hget : tableGet s.table k with
    | none =>
        rw [get_miss_snd hget] at hv
        exact Option.noConfusion hv
    | some vc =>
        rw [get, hget]
        rfl
  · intro v c s' r hins hcap
    rcases insert_cases hins with ⟨hc0, -⟩ | ⟨w, c₀, -, -, heq⟩ |
      ⟨-, -, -, heq⟩ | ⟨victim, w, cv, -, -, -, -, -, heq⟩
    · omega
    · injection heq with h1 h2
      subst h1
      rfl
    · injection heq with h1 h2
      subst h1
      rfl
    · injection heq with h1 h2
      subst h1
      rfl
  · intro k₂ v c s' hins habs hfull hcap
    rcases insert_cases hins with ⟨hc0, -⟩ | ⟨w, c₀, -, hget, -⟩ |
      ⟨-, -, hroom, -⟩ | ⟨victim, w, cv, -, -, -, hlast, hvic, heq⟩
    · omega
    · rw [habs] at hget
      exact Option.noConfusion hget
    · omega
    · injection heq with h1 h2
      subst h1
      exact ⟨victim, w, hlast, rfl, fun hk hvk =>
        getLast?_not_mem_dropLast hWF.1 hlast (hvk ▸ hk)⟩

/-- C6 witness: a `get` hit on key 2 of `s21` leaves key 2 at the head of
the recency list. -/
theorem c6_witness : (get s21 2).1.order.head? = some 2 :=
  (c6_mru_and_tail_victim s21 2 (by decide)).1 2 (by decide)

end HigherDb
